import Mathlib

/-!
Shallow embedding of the transaction extraction and field-mapping engine of
`qxf2qif.cpp` (OFX/SGML to QIF converter).  Buffers and C strings are modelled
as `List Char` (the buffer is assumed free of NUL bytes, as the program reads
the file as one NUL-terminated string); pointers into the buffer are modelled
as suffixes (`List.drop`); fixed-size output buffers are modelled by explicit
truncation parameters.
-/

namespace Qxf2Qif

/-- ASCII lowercasing, as C `tolower` in the C locale acts on `unsigned char`. -/
def toLowerC (c : Char) : Char :=
  if 'A' ≤ c ∧ c ≤ 'Z' then Char.ofNat (c.toNat + 32) else c

/-- Case-insensitive match of `needle` against the front of `hay`
(the `strncasecmp(hay, needle, nlen) == 0` test in `strcasestr_simple`:
a NUL in `hay` before `nlen` characters means mismatch). -/
def ciMatch : List Char → List Char → Bool
  | [], _ => true
  | _ :: _, [] => false
  | n :: ns, h :: hs => (toLowerC n == toLowerC h) && ciMatch ns hs

/-- The scanning loop of `strcasestr_simple`, tracking the current index. -/
def strcasestrAux (needle : List Char) : List Char → Nat → Option Nat
  | [], _ => none
  | h :: hs, i => if ciMatch needle (h :: hs) then some i else strcasestrAux needle hs (i + 1)

/-- `strcasestr_simple` from qxf2qif.cpp: case-insensitive search for `needle`
in `hay`; returns the index of the first match (the C function returns a
pointer; an empty needle returns `hay` itself, i.e. index 0). -/
def strcasestr_simple (hay needle : List Char) : Option Nat :=
  if needle.isEmpty then some 0 else strcasestrAux needle hay 0

/-- `MAX_FIELD` from qxf2qif.cpp. -/
def MAX_FIELD : Nat := 4096

/-- The bounded copy in `extract_tag_content`: at most `outLen - 1` characters
are stored (`if (copylen >= out_len) copylen = out_len - 1`). -/
def truncTo (outLen : Nat) (s : List Char) : List Char :=
  if outLen ≤ s.length then s.take (outLen - 1) else s

/-- `extract_tag_content` from qxf2qif.cpp.  Searches case-insensitively for
`<TAG>` from `start` (to the end of the C string, i.e. the end of the buffer);
on success returns the content up to `</TAG>`, or, when no close marker
follows, up to the next `<` or the end.  The source performs the identical
open-marker search twice in a row; the two calls are the same pure search, so
it is modelled once. -/
def extract_tag_content (start tag : List Char) (outLen : Nat) : Option (List Char) :=
  if 64 ≤ tag.length + 3 then none
  else
    match strcasestr_simple start ('<' :: (tag ++ ['>'])) with
    | none => none
    | some i =>
      match strcasestr_simple (start.drop (i + (tag.length + 2)))
          ('<' :: '/' :: (tag ++ ['>'])) with
      | some j => some (truncTo outLen ((start.drop (i + (tag.length + 2))).take j))
      | none =>
        some (truncTo outLen ((start.drop (i + (tag.length + 2))).takeWhile (fun c => c != '<')))

/-- C `isspace` in the C locale. -/
def isspaceC (c : Char) : Bool :=
  c == ' ' || c == '\t' || c == '\n' || c == '\x0b' || c == '\x0c' || c == '\r'

/-- `trim_inplace` from qxf2qif.cpp: drop leading, then trailing whitespace. -/
def trim (s : List Char) : List Char :=
  ((s.dropWhile isspaceC).reverse.dropWhile isspaceC).reverse

/-- The sanitization loops in `main`: every CR or LF becomes a space. -/
def sanitizeNl (s : List Char) : List Char :=
  s.map (fun c => if c == '\r' || c == '\n' then ' ' else c)

/-- C `isdigit`. -/
def isdigitC (c : Char) : Bool := decide ('0' ≤ c ∧ c ≤ '9')

/-- `ofxdate_to_mmddyyyy` from qxf2qif.cpp: token must have length ≥ 8 and the
output buffer must hold ≥ 11 bytes; the first eight characters, split 4/2/2
into year/month/day, must all be digits; on success the result is
`MM/DD/YYYY`. -/
def ofxdate_to_mmddyyyy (token : List Char) (outlen : Nat) : Option (List Char) :=
  if token.length < 8 ∨ outlen < 11 then none
  else
    if (token.take 4).all isdigitC && ((token.drop 4).take 2).all isdigitC
        && ((token.drop 6).take 2).all isdigitC then
      some ((token.drop 4).take 2 ++ '/' :: ((token.drop 6).take 2 ++ '/' :: token.take 4))
    else none

/-- C `strchr`, returning the index of the first occurrence of `c`. -/
def strchrIdx (c : Char) : List Char → Option Nat
  | [] => none
  | x :: xs => if x == c then some 0 else (strchrIdx c xs).map (· + 1)

/-- The opening record marker `"<STMTTRN"` searched by `find_next_stmttrn`. -/
def stmttrnOpen : List Char := ['<', 'S', 'T', 'M', 'T', 'T', 'R', 'N']

/-- The closing record marker `"</STMTTRN>"` searched by `find_next_stmttrn`. -/
def stmttrnClose : List Char := ['<', '/', 'S', 'T', 'M', 'T', 'T', 'R', 'N', '>']

/-- `find_next_stmttrn` from qxf2qif.cpp: find `<STMTTRN` case-insensitively,
advance past the first following `>`, then require `</STMTTRN>`; returns
`(contentStart, afterEnd)` as indices into `buf`.  The `bufend` parameter of
the C function is unused there and omitted. -/
def find_next_stmttrn (buf : List Char) : Option (Nat × Nat) :=
  match strcasestr_simple buf stmttrnOpen with
  | none => none
  | some i =>
    match strchrIdx '>' (buf.drop i) with
    | none => none
    | some k =>
      match strcasestr_simple (buf.drop (i + k + 1)) stmttrnClose with
      | none => none
      | some j => some (i + k + 1, i + k + 1 + j + stmttrnClose.length)

/-- Tag name `"DTPOSTED"`. -/
def dtpostedTag : List Char := ['D', 'T', 'P', 'O', 'S', 'T', 'E', 'D']

/-- Tag name `"TRNAMT"`. -/
def trnamtTag : List Char := ['T', 'R', 'N', 'A', 'M', 'T']

/-- Tag name `"NAME"`. -/
def nameTag : List Char := ['N', 'A', 'M', 'E']

/-- Tag name `"MEMO"`. -/
def memoTag : List Char := ['M', 'E', 'M', 'O']

/-- The header line `"!Type:Bank"` written before any record. -/
def headerLine : List Char := ['!', 'T', 'y', 'p', 'e', ':', 'B', 'a', 'n', 'k']

/-- The placeholder payee line `"P(unknown)"`. -/
def pUnknownLine : List Char := ['P', '(', 'u', 'n', 'k', 'n', 'o', 'w', 'n', ')']

/-- A field as main sees it: `extract_tag_content` into a zeroed `MAX_FIELD`
buffer; an absent tag leaves the buffer empty. -/
def fieldOf (rest tag : List Char) : List Char :=
  (extract_tag_content rest tag MAX_FIELD).getD []

/-- `dtposted` after `trim_inplace`. -/
def dtpostedOf (rest : List Char) : List Char := trim (fieldOf rest dtpostedTag)

/-- `trnamt` after `trim_inplace`. -/
def trnamtOf (rest : List Char) : List Char := trim (fieldOf rest trnamtTag)

/-- `name` after `trim_inplace` and newline sanitization. -/
def nameOf (rest : List Char) : List Char := sanitizeNl (trim (fieldOf rest nameTag))

/-- `memo` after `trim_inplace` and newline sanitization. -/
def memoOf (rest : List Char) : List Char := sanitizeNl (trim (fieldOf rest memoTag))

/-- The `qifdate` value after the first conversion block in `main` (lines
317-329): full token, then, if the token has ≥ 8 characters, its first 8
characters; empty on double failure.  The `char qifdate[16]` buffer gives the
`16` output-length arguments. -/
def qifdateFirst (dt : List Char) : List Char :=
  match ofxdate_to_mmddyyyy dt 16 with
  | some d => d
  | none =>
    if 8 ≤ dt.length then
      match ofxdate_to_mmddyyyy (dt.take 8) 16 with
      | some d => d
      | none => []
    else []

/-- The `qifdate` value after the second fallback block in `main` (lines
346-358): when still empty, retry the 8-character prefix once more and
otherwise fall back to the raw token, `strncpy`-truncated to 15 characters
(`sizeof(qifdate) - 1`). -/
def qifdateFinal (dt : List Char) : List Char :=
  if (qifdateFirst dt).isEmpty then
    if 8 ≤ dt.length then
      match ofxdate_to_mmddyyyy (dt.take 8) 16 with
      | some d => d
      | none => dt.take 15
    else dt.take 15
  else qifdateFirst dt

/-- The comma-stripping loop in `main` (lines 338-344): `ai` is the number of
characters already stored; the loop stops when `ai + 1` reaches `MAX_FIELD`. -/
def clean_amount : List Char → Nat → List Char
  | [], _ => []
  | c :: cs, ai =>
    if ai + 1 < MAX_FIELD then
      if c == ',' then clean_amount cs ai else c :: clean_amount cs (ai + 1)
    else []

/-- The QIF lines written for one record span by the loop body in `main`:
empty when the trimmed amount is empty (the skip rule), otherwise the
D/P/optional-M/T/C*/^ block.  The source prints `"D\n"` when `qifdate` is
empty and `"Dxxx\n"` otherwise; both are `'D' :: qifdate`. -/
def recordBlock (memoFlag : Bool) (rest : List Char) : List (List Char) :=
  if (trnamtOf rest).isEmpty then []
  else
    ('D' :: qifdateFinal (dtpostedOf rest)) ::
      (if (nameOf rest).isEmpty then pUnknownLine else 'P' :: sanitizeNl (nameOf rest)) ::
        ((if !(memoOf rest).isEmpty && memoFlag then ['M' :: memoOf rest] else []) ++
          [('T' :: clean_amount (trnamtOf rest) 0), ['C', '*'], ['^']])

/-- The conversion state threaded through the record loop of `main`: the
output lines written so far, `numTransactions`, and `printMemoWarning`. -/
structure ConvState where
  lines : List (List Char)
  numTransactions : Nat
  printMemoWarning : Bool
deriving DecidableEq

/-- One iteration of the record loop of `main` on the record span starting at
`rest`: skip when the trimmed amount is empty, otherwise append the record's
block, increment the transaction counter, and raise `printMemoWarning` when a
non-empty memo is present but `memoFlag` is off. -/
def processRecord (memoFlag : Bool) (rest : List Char) (st : ConvState) : ConvState :=
  if (trnamtOf rest).isEmpty then st
  else
    ⟨st.lines ++ recordBlock memoFlag rest,
     st.numTransactions + 1,
     st.printMemoWarning || (!(memoOf rest).isEmpty && !memoFlag)⟩

/-- The record loop of `main`, with explicit fuel.  Each successful
`find_next_stmttrn` strictly shrinks the scan suffix, so any fuel above the
buffer length is enough (proved below). -/
def convertLoop (memoFlag : Bool) : Nat → List Char → ConvState → ConvState
  | 0, _, st => st
  | fuel + 1, scan, st =>
    match find_next_stmttrn scan with
    | none => st
    | some (cs, ae) =>
      convertLoop memoFlag fuel (scan.drop ae) (processRecord memoFlag (scan.drop cs) st)

/-- The full conversion pass of `main`: header line, then the record loop from
the start of the buffer with zeroed counters. -/
def convert (memoFlag : Bool) (buf : List Char) : ConvState :=
  convertLoop memoFlag (buf.length + 1) buf ⟨[headerLine], 0, false⟩

/-- The record spans visited by the loop, each given as the suffix of the
buffer from its content start (the `block_start` pointer), with fuel as in
`convertLoop`. -/
def recordRests : Nat → List Char → List (List Char)
  | 0, _ => []
  | fuel + 1, buf =>
    match find_next_stmttrn buf with
    | none => []
    | some (cs, ae) => buf.drop cs :: recordRests fuel (buf.drop ae)

/-- The record spans visited during `convert buf`. -/
def records (buf : List Char) : List (List Char) := recordRests (buf.length + 1) buf

/-- A record span produces output: its trimmed amount is non-empty. -/
def emitsRecord (rest : List Char) : Bool := !(trnamtOf rest).isEmpty

/-- A record span raises the suppressed-memo warning: it is emitted, carries a
non-empty memo, and `memoFlag` is off. -/
def memoSuppressed (memoFlag : Bool) (rest : List Char) : Bool :=
  emitsRecord rest && !(memoOf rest).isEmpty && !memoFlag

/-- A concrete buffer with two records, the first without a `MEMO` tag, the
second with one. -/
def c2buf : List Char :=
  "<STMTTRN>A<TRNAMT>1</STMTTRN><STMTTRN><MEMO>zz</MEMO><TRNAMT>2</STMTTRN>".toList

/-- A concrete record span whose `DTPOSTED` token is 16 non-digit characters
and whose amount is usable. -/
def c3rest : List Char := "<DTPOSTED>AAAAAAAAAAAAAAAA<TRNAMT>5".toList

example : strcasestr_simple "xAbC".toList "abc".toList = some 1 := by decide

example : extract_tag_content "<NAME>Alice<MEMO>xyz".toList nameTag MAX_FIELD
    = some "Alice".toList := by decide

example : ofxdate_to_mmddyyyy "99991399".toList 11 = some "13/99/9999".toList := by decide

example : find_next_stmttrn "<STMTTRN>A<TRNAMT>1</STMTTRN>".toList = some (9, 29) := by decide

example : trim "  a b\t".toList = "a b".toList := by decide

example : clean_amount "1,234.56".toList 0 = "1234.56".toList := by decide

/-! ### Helper lemmas -/

theorem strcasestrAux_some {needle : List Char} :
    ∀ {hay : List Char} {i j : Nat}, strcasestrAux needle hay i = some j →
      i ≤ j ∧ ciMatch needle (hay.drop (j - i)) = true := by
  intro hay
  induction hay with
  | nil => intro i j h; simp [strcasestrAux] at h
  | cons x xs ih =>
    intro i j h
    unfold strcasestrAux at h
    by_cases hc : ciMatch needle (x :: xs) = true
    · rw [if_pos hc] at h
      obtain rfl : i = j := by simpa using h
      exact ⟨Nat.le_refl _, by simpa using hc⟩
    · rw [if_neg hc] at h
      obtain ⟨h1, h2⟩ := ih h
      refine ⟨by omega, ?_⟩
      have hsub : j - i = (j - (i + 1)) + 1 := by omega
      rw [hsub, List.drop_succ_cons]
      exact h2

theorem strcasestr_simple_some {hay needle : List Char} {j : Nat}
    (hne : needle.isEmpty = false) (h : strcasestr_simple hay needle = some j) :
    ciMatch needle (hay.drop j) = true := by
  unfold strcasestr_simple at h
  rw [hne] at h
  simp only [Bool.false_eq_true, if_false] at h
  simpa using (strcasestrAux_some h).2

theorem strcasestr_simple_some_ne_nil {hay needle : List Char} {j : Nat}
    (hne : needle.isEmpty = false) (h : strcasestr_simple hay needle = some j) :
    hay ≠ [] := by
  intro hnil
  subst hnil
  unfold strcasestr_simple at h
  rw [hne] at h
  simp [strcasestrAux] at h

theorem find_next_stmttrn_some {buf : List Char} {cs ae : Nat}
    (h : find_next_stmttrn buf = some (cs, ae)) :
    1 ≤ ae ∧ buf ≠ [] := by
  unfold find_next_stmttrn at h
  split at h
  · simp at h
  · rename_i i hopen
    split at h
    · simp at h
    · split at h
      · simp at h
      · simp only [Option.some.injEq, Prod.mk.injEq] at h
        refine ⟨by omega, strcasestr_simple_some_ne_nil (by decide) hopen⟩

theorem trim_length_le (s : List Char) : (trim s).length ≤ s.length := by
  unfold trim
  have h1 : ((s.dropWhile isspaceC).reverse.dropWhile isspaceC).length
      ≤ (s.dropWhile isspaceC).reverse.length := (List.dropWhile_sublist _).length_le
  have h2 : (s.dropWhile isspaceC).length ≤ s.length := (List.dropWhile_sublist _).length_le
  simp only [List.length_reverse] at h1 ⊢
  omega

theorem truncTo_length_le (outLen : Nat) (s : List Char) (h : 1 ≤ outLen) :
    (truncTo outLen s).length ≤ outLen - 1 := by
  unfold truncTo
  by_cases hl : outLen ≤ s.length
  · rw [if_pos hl]; simp
  · rw [if_neg hl]; omega

theorem extract_length_le {start tag : List Char} {out : List Char}
    (h : extract_tag_content start tag MAX_FIELD = some out) :
    out.length ≤ MAX_FIELD - 1 := by
  unfold extract_tag_content at h
  split at h
  · simp at h
  · split at h
    · simp at h
    · split at h
      · simp only [Option.some.injEq] at h
        rw [← h]
        exact truncTo_length_le _ _ (by decide)
      · simp only [Option.some.injEq] at h
        rw [← h]
        exact truncTo_length_le _ _ (by decide)

theorem fieldOf_length_le (rest tag : List Char) :
    (fieldOf rest tag).length ≤ MAX_FIELD - 1 := by
  unfold fieldOf
  cases h : extract_tag_content rest tag MAX_FIELD with
  | none => simp
  | some out => simpa using extract_length_le h

theorem trnamtOf_length_lt (rest : List Char) : (trnamtOf rest).length < MAX_FIELD := by
  have h1 := trim_length_le (fieldOf rest trnamtTag)
  have h2 := fieldOf_length_le rest trnamtTag
  unfold trnamtOf
  unfold MAX_FIELD at h2 ⊢
  omega

theorem clean_amount_eq_filter :
    ∀ (t : List Char) (ai : Nat), ai + t.length < MAX_FIELD →
      clean_amount t ai = t.filter (fun c => c != ',') := by
  intro t
  induction t with
  | nil => intro ai _; simp [clean_amount]
  | cons c cs ih =>
    intro ai hlen
    unfold clean_amount
    rw [if_pos (by simp at hlen ⊢; omega)]
    by_cases hc : c == ','
    · rw [if_pos hc]
      have hceq : c = ',' := by simpa using hc
      subst hceq
      rw [ih ai (by simp at hlen ⊢; omega)]
      simp [List.filter_cons]
    · rw [if_neg hc]
      have hcne : c ≠ ',' := by simpa using hc
      rw [ih (ai + 1) (by simp at hlen ⊢; omega)]
      simp [List.filter_cons, hcne]

/-! ### Claim theorems -/

/-- Claim C1: for every record span found by the scan, a QIF block is emitted
iff the trimmed `TRNAMT` field is non-empty; a record with an empty trimmed
amount contributes no output lines and leaves the emitted-record counter
unchanged. -/
theorem c1_record_emitted_iff_amount (memoFlag : Bool) (rest : List Char) (st : ConvState) :
    (trnamtOf rest = [] → processRecord memoFlag rest st = st) ∧
    (trnamtOf rest ≠ [] →
      (processRecord memoFlag rest st).numTransactions = st.numTransactions + 1 ∧
      (processRecord memoFlag rest st).lines = st.lines ++ recordBlock memoFlag rest ∧
      recordBlock memoFlag rest ≠ []) := by
  constructor
  · intro h
    unfold processRecord
    rw [if_pos (by simpa using h)]
  · intro h
    have hne : (trnamtOf rest).isEmpty = false := by simpa using h
    unfold processRecord recordBlock
    rw [hne]
    simp

/-- Witness to C1 at a concrete record span without a `TRNAMT` tag: the state
is unchanged. -/
theorem c1_witness :
    processRecord false ("<DTPOSTED>20240101<MEMO>m".toList) ⟨[], 0, false⟩ = ⟨[], 0, false⟩ :=
  (c1_record_emitted_iff_amount false ("<DTPOSTED>20240101<MEMO>m".toList) ⟨[], 0, false⟩).1
    (by decide)

/-- Claim C10: a record dropped by the empty-amount skip rule changes nothing:
neither the counter nor the suppressed-memo flag, even when the dropped
record's memo is non-empty while `memoFlag` is off, because the skip happens
before memo handling. -/
theorem c10_skip_preserves_state (memoFlag : Bool) (rest : List Char) (st : ConvState)
    (hamt : trnamtOf rest = []) (_hmemo : memoOf rest ≠ []) (_hflag : memoFlag = false) :
    (processRecord memoFlag rest st).printMemoWarning = st.printMemoWarning ∧
    (processRecord memoFlag rest st).numTransactions = st.numTransactions ∧
    processRecord memoFlag rest st = st := by
  have h : processRecord memoFlag rest st = st := by
    unfold processRecord
    rw [if_pos (by simpa using hamt)]
  exact ⟨by rw [h], by rw [h], h⟩

/-- Witness to C10: a concrete record with a memo but no amount, with memo
inclusion off, leaves a non-trivial state untouched. -/
theorem c10_witness :
    processRecord false ("<MEMO>hello".toList) ⟨[['x']], 3, false⟩ = ⟨[['x']], 3, false⟩ :=
  (c10_skip_preserves_state false ("<MEMO>hello".toList) ⟨[['x']], 3, false⟩
    (by decide) (by decide) rfl).2.2

/-- Claim C4: date conversion succeeds exactly on tokens of length ≥ 8 whose
first 8 characters are digits, with an output buffer of ≥ 11 bytes, and then
yields `MM/DD/YYYY` from characters 4-5, 6-7 and 0-3 with no range check; in
particular `"99991399"` normalizes to `"13/99/9999"`. -/
theorem c4_ofxdate_characterization :
    (∀ (token : List Char) (outlen : Nat),
      ofxdate_to_mmddyyyy token outlen =
        if 8 ≤ token.length ∧ 11 ≤ outlen ∧ (token.take 8).all isdigitC = true then
          some ((token.drop 4).take 2 ++ '/' :: ((token.drop 6).take 2 ++ '/' :: token.take 4))
        else none) ∧
    ofxdate_to_mmddyyyy "99991399".toList 11 = some "13/99/9999".toList := by
  refine ⟨?_, by decide⟩
  intro token outlen
  unfold ofxdate_to_mmddyyyy
  by_cases h1 : token.length < 8 ∨ outlen < 11
  · rw [if_pos h1, if_neg (by omega)]
  · rw [if_neg h1]
    have hsplit : (token.take 8).all isdigitC
        = ((token.take 4).all isdigitC && ((token.drop 4).take 2).all isdigitC
            && ((token.drop 6).take 2).all isdigitC) := by
      have e1 : token.take 8 = token.take 4 ++ (token.drop 4).take 4 := by
        have := List.take_add token 4 4
        simpa using this
      have e2 : (token.drop 4).take 4
          = (token.drop 4).take 2 ++ ((token.drop 4).drop 2).take 2 := by
        have := List.take_add (token.drop 4) 2 2
        simpa using this
      rw [e1, e2, List.drop_drop]
      simp [List.all_append, Bool.and_assoc]
    by_cases hd : ((token.take 4).all isdigitC && ((token.drop 4).take 2).all isdigitC
        && ((token.drop 6).take 2).all isdigitC) = true
    · rw [if_pos hd, if_pos ⟨by omega, by omega, by rw [hsplit]; exact hd⟩]
    · rw [if_neg hd, if_neg ?_]
      intro hcond
      exact hd (by rw [← hsplit]; exact hcond.2.2)

/-- Claim C5: when the open marker `<tagName>` is found but no close marker
`</tagName>` follows it, extraction returns the content from the end of the
open marker up to (not including) the next `<`, or to the end of the slice if
none follows.  (The `hfit` bound excludes only the documented `MAX_FIELD`
truncation of oversized content.) -/
theorem c5_unterminated_tag_fallback (start tag : List Char) (i : Nat)
    (hg : tag.length + 3 < 64)
    (hopen : strcasestr_simple start ('<' :: (tag ++ ['>'])) = some i)
    (hclose : strcasestr_simple (start.drop (i + (tag.length + 2)))
        ('<' :: '/' :: (tag ++ ['>'])) = none)
    (hfit : ((start.drop (i + (tag.length + 2))).takeWhile (fun c => c != '<')).length
        < MAX_FIELD) :
    extract_tag_content start tag MAX_FIELD
      = some ((start.drop (i + (tag.length + 2))).takeWhile (fun c => c != '<')) := by
  unfold extract_tag_content
  rw [if_neg (by omega)]
  simp only [hopen, hclose]
  unfold truncTo
  rw [if_neg (by omega)]

/-- Witness to C5 at the spec's own example: `<NAME>Alice<MEMO>xyz` yields
`"Alice"` for `NAME`. -/
theorem c5_witness :
    extract_tag_content "<NAME>Alice<MEMO>xyz".toList nameTag MAX_FIELD
      = some "Alice".toList := by
  rw [c5_unterminated_tag_fallback "<NAME>Alice<MEMO>xyz".toList nameTag 0
    (by decide) (by decide) (by decide) (by decide)]
  decide

/-- Claim C2 is FALSE on the code: `extract_tag_content` is called on the
suffix of the whole buffer starting at the record's content start and searches
to the end of the buffer, not only to `</STMTTRN>`.  In `c2buf` the first
record's span is `(9, 29)` (closing marker at index 19), its slice
`(c2buf.drop 9).take 10` contains no `<MEMO>`, yet extraction for that record
returns `"zz"` from the second record instead of the empty string. -/
theorem c2_counterexample :
    find_next_stmttrn c2buf = some (9, 29) ∧
    strcasestr_simple ((c2buf.drop 9).take 10) ('<' :: (memoTag ++ ['>'])) = none ∧
    extract_tag_content (c2buf.drop 9) memoTag MAX_FIELD = some ['z', 'z'] := by
  refine ⟨by decide, by decide, by decide⟩

/-- Claim C2 amended: field extraction for a record span searches from the
record's content start through the end of the buffer; the field is the empty
string when the open marker occurs nowhere in that whole suffix (so a tag
occurring only after the record's closing marker can supply the value, as
`c2_counterexample` shows). -/
theorem c2_amended_search_unbounded (rest tag : List Char)
    (hg : tag.length + 3 < 64)
    (hnone : strcasestr_simple rest ('<' :: (tag ++ ['>'])) = none) :
    extract_tag_content rest tag MAX_FIELD = none ∧
    (extract_tag_content rest tag MAX_FIELD).getD [] = [] := by
  have h : extract_tag_content rest tag MAX_FIELD = none := by
    unfold extract_tag_content
    rw [if_neg (by omega)]
    simp only [hnone]
  exact ⟨h, by rw [h]; rfl⟩

/-- Witness to the amended C2: a buffer suffix with no `<MEMO>` anywhere gives
an empty memo field. -/
theorem c2_witness :
    extract_tag_content "x</STMTTRN><STMTTRN>y</STMTTRN>".toList memoTag MAX_FIELD = none :=
  (c2_amended_search_unbounded "x</STMTTRN><STMTTRN>y</STMTTRN>".toList memoTag
    (by decide) (by decide)).1

theorem qifdateFinal_of_fail {dt : List Char}
    (h1 : ofxdate_to_mmddyyyy dt 16 = none)
    (h2 : ofxdate_to_mmddyyyy (dt.take 8) 16 = none) :
    qifdateFinal dt = dt.take 15 := by
  have hq : qifdateFirst dt = [] := by
    unfold qifdateFirst
    simp only [h1, h2]
    simp
  unfold qifdateFinal
  rw [hq]
  simp only [List.isEmpty_nil, if_true]
  by_cases hl : 8 ≤ dt.length
  · rw [if_pos hl]
    simp only [h2]
  · rw [if_neg hl]

/-- Claim C3 is FALSE on the code as stated: the raw-token fallback is
`strncpy` into the 16-byte `qifdate` buffer, so only the first 15 characters
of the raw `DTPOSTED` token reach the date line.  In `c3rest` the trimmed
token is 16 `A`s (failing both conversion attempts), the record is emitted,
and the date line holds only 15 `A`s — not the token verbatim. -/
theorem c3_counterexample :
    dtpostedOf c3rest = List.replicate 16 'A' ∧
    ofxdate_to_mmddyyyy (dtpostedOf c3rest) 16 = none ∧
    ofxdate_to_mmddyyyy ((dtpostedOf c3rest).take 8) 16 = none ∧
    trnamtOf c3rest ≠ [] ∧
    (processRecord false c3rest ⟨[], 0, false⟩).lines
      = [('D' :: List.replicate 15 'A'), pUnknownLine, ['T', '5'], ['C', '*'], ['^']] ∧
    (∀ l ∈ (processRecord false c3rest ⟨[], 0, false⟩).lines,
      l ≠ 'D' :: List.replicate 16 'A') := by
  refine ⟨by decide, by decide, by decide, by decide, by decide, by decide⟩

/-- Claim C3 amended: for every record with a usable amount whose `DTPOSTED`
token fails conversion on the full token and on its first 8 characters, the
emitted date line contains the raw token truncated to its first 15 characters
(hence verbatim whenever the token has at most 15 characters), and the record
is still emitted. -/
theorem c3_amended_raw_date_truncated (memoFlag : Bool) (rest : List Char) (st : ConvState)
    (h1 : ofxdate_to_mmddyyyy (dtpostedOf rest) 16 = none)
    (h2 : ofxdate_to_mmddyyyy ((dtpostedOf rest).take 8) 16 = none)
    (h3 : trnamtOf rest ≠ []) :
    (∃ tail, (processRecord memoFlag rest st).lines
        = st.lines ++ ('D' :: (dtpostedOf rest).take 15) :: tail) ∧
    (processRecord memoFlag rest st).numTransactions = st.numTransactions + 1 := by
  have hne : (trnamtOf rest).isEmpty = false := by simpa using h3
  have hlines : (processRecord memoFlag rest st).lines
      = st.lines ++ recordBlock memoFlag rest := by
    unfold processRecord
    rw [hne]
    simp
  have hnum : (processRecord memoFlag rest st).numTransactions = st.numTransactions + 1 := by
    unfold processRecord
    rw [hne]
    simp
  have hblock : recordBlock memoFlag rest
      = ('D' :: (dtpostedOf rest).take 15) ::
          (if (nameOf rest).isEmpty then pUnknownLine else 'P' :: sanitizeNl (nameOf rest)) ::
            ((if !(memoOf rest).isEmpty && memoFlag then ['M' :: memoOf rest] else []) ++
              [('T' :: clean_amount (trnamtOf rest) 0), ['C', '*'], ['^']]) := by
    unfold recordBlock
    rw [hne]
    simp only [Bool.false_eq_true, if_false]
    rw [qifdateFinal_of_fail h1 h2]
  refine ⟨⟨(if (nameOf rest).isEmpty then pUnknownLine else 'P' :: sanitizeNl (nameOf rest)) ::
      ((if !(memoOf rest).isEmpty && memoFlag then ['M' :: memoOf rest] else []) ++
        [('T' :: clean_amount (trnamtOf rest) 0), ['C', '*'], ['^']]), ?_⟩, hnum⟩
  rw [hlines, hblock]

/-- Witness to the amended C3: an 8-character non-digit token is emitted
verbatim on the date line (its first 15 characters are the whole token). -/
theorem c3_witness :
    (∃ tail, (processRecord false ("<DTPOSTED>BAD-DATE<TRNAMT>7".toList) ⟨[], 0, false⟩).lines
        = [] ++ ('D' :: (dtpostedOf ("<DTPOSTED>BAD-DATE<TRNAMT>7".toList)).take 15) :: tail) ∧
    (processRecord false ("<DTPOSTED>BAD-DATE<TRNAMT>7".toList) ⟨[], 0, false⟩).numTransactions
      = 0 + 1 :=
  c3_amended_raw_date_truncated false ("<DTPOSTED>BAD-DATE<TRNAMT>7".toList) ⟨[], 0, false⟩
    (by decide) (by decide) (by decide)

theorem processRecord_eq (memoFlag : Bool) (rest : List Char) (st : ConvState) :
    processRecord memoFlag rest st
      = ⟨st.lines ++ recordBlock memoFlag rest,
         st.numTransactions + (if emitsRecord rest = true then 1 else 0),
         st.printMemoWarning || memoSuppressed memoFlag rest⟩ := by
  by_cases h : (trnamtOf rest).isEmpty = true
  · unfold processRecord recordBlock memoSuppressed emitsRecord
    rw [h]
    simp
  · have h' : (trnamtOf rest).isEmpty = false := by simpa using h
    unfold processRecord recordBlock memoSuppressed emitsRecord
    rw [h']
    simp

theorem convertLoop_spec (memoFlag : Bool) :
    ∀ (fuel : Nat) (scan : List Char) (st : ConvState), scan.length < fuel →
      convertLoop memoFlag fuel scan st
        = ⟨st.lines ++ ((recordRests fuel scan).map (recordBlock memoFlag)).flatten,
           st.numTransactions + (recordRests fuel scan).countP emitsRecord,
           st.printMemoWarning || (recordRests fuel scan).any (memoSuppressed memoFlag)⟩ := by
  intro fuel
  induction fuel with
  | zero => intro scan st h; exact absurd h (by omega)
  | succ n ih =>
    intro scan st h
    unfold convertLoop recordRests
    cases hf : find_next_stmttrn scan with
    | none => simp
    | some pr =>
      obtain ⟨cs, ae⟩ := pr
      have hfacts := find_next_stmttrn_some hf
      have hpos : 0 < scan.length := List.length_pos.mpr hfacts.2
      have hlt : (scan.drop ae).length < n := by
        simp only [List.length_drop]
        omega
      simp only []
      rw [ih (scan.drop ae) (processRecord memoFlag (scan.drop cs) st) hlt, processRecord_eq]
      simp only [List.map_cons, List.flatten_cons, List.countP_cons, List.any_cons,
        List.append_assoc, Bool.or_assoc, ConvState.mk.injEq, true_and, and_true]
      omega

/-- Claim C6: the record locator yields a span only when the open marker, a
following `>`, and the close marker are all present — if any of the three is
absent it returns absent (no partial record); on success `afterEnd` points
immediately past an occurrence of the closing marker; and the record loop ends
the first time the locator returns absent. -/
theorem c6_locator_requires_both_markers :
    (∀ buf : List Char, strcasestr_simple buf stmttrnOpen = none →
      find_next_stmttrn buf = none) ∧
    (∀ (buf : List Char) (i : Nat), strcasestr_simple buf stmttrnOpen = some i →
      strchrIdx '>' (buf.drop i) = none → find_next_stmttrn buf = none) ∧
    (∀ (buf : List Char) (i k : Nat), strcasestr_simple buf stmttrnOpen = some i →
      strchrIdx '>' (buf.drop i) = some k →
      strcasestr_simple (buf.drop (i + k + 1)) stmttrnClose = none →
      find_next_stmttrn buf = none) ∧
    (∀ (buf : List Char) (cs ae : Nat), find_next_stmttrn buf = some (cs, ae) →
      ∃ i k j, strcasestr_simple buf stmttrnOpen = some i ∧
        strchrIdx '>' (buf.drop i) = some k ∧ cs = i + k + 1 ∧
        strcasestr_simple (buf.drop cs) stmttrnClose = some j ∧
        ae = cs + j + 10 ∧ ciMatch stmttrnClose (buf.drop (ae - 10)) = true) ∧
    (∀ (memoFlag : Bool) (fuel : Nat) (buf : List Char) (st : ConvState),
      find_next_stmttrn buf = none → convertLoop memoFlag (fuel + 1) buf st = st) := by
  refine ⟨?_, ?_, ?_, ?_, ?_⟩
  · intro buf h
    unfold find_next_stmttrn
    simp only [h]
  · intro buf i hopen hchr
    unfold find_next_stmttrn
    simp only [hopen, hchr]
  · intro buf i k hopen hchr hclose
    unfold find_next_stmttrn
    simp only [hopen, hchr, hclose]
  · intro buf cs ae h
    unfold find_next_stmttrn at h
    split at h
    · simp at h
    · rename_i i hopen
      split at h
      · simp at h
      · rename_i k hchr
        split at h
        · simp at h
        · rename_i j hclose
          simp only [Option.some.injEq, Prod.mk.injEq] at h
          obtain ⟨hcs, hae⟩ := h
          have hlen : stmttrnClose.length = 10 := by decide
          refine ⟨i, k, j, hopen, hchr, hcs.symm, hcs ▸ hclose, by omega, ?_⟩
          have h1 : ciMatch stmttrnClose ((buf.drop (i + k + 1)).drop j) = true :=
            strcasestr_simple_some (by decide) hclose
          rw [List.drop_drop] at h1
          have he : ae - 10 = (i + k + 1) + j := by omega
          rw [he]
          exact h1
  · intro memoFlag fuel buf st h
    unfold convertLoop
    simp only [h]

/-- Witness to C6: on a buffer with no record markers the locator is absent
and the loop returns the state unchanged. -/
theorem c6_witness :
    convertLoop false 6 "hello".toList ⟨[headerLine], 0, false⟩ = ⟨[headerLine], 0, false⟩ :=
  c6_locator_requires_both_markers.2.2.2.2 false 5 "hello".toList ⟨[headerLine], 0, false⟩
    (by decide)

/-- Claim C7: for every emitted record an M-prefixed line appears in its block
iff `memoFlag` is on and the trimmed memo is non-empty (and the warning flag
is or-ed with exactly the suppressed case); across a whole conversion the
suppressed-memo flag is true exactly when some scanned record is emitted with
a non-empty memo while `memoFlag` is off. -/
theorem c7_memo_line_iff_and_suppression (memoFlag : Bool) :
    (∀ (rest : List Char) (st : ConvState), trnamtOf rest ≠ [] →
      ((∃ l ∈ recordBlock memoFlag rest, l.head? = some 'M') ↔
        (memoFlag = true ∧ memoOf rest ≠ [])) ∧
      (processRecord memoFlag rest st).printMemoWarning
        = (st.printMemoWarning || (!(memoOf rest).isEmpty && !memoFlag))) ∧
    (∀ buf : List Char,
      (convert memoFlag buf).printMemoWarning = true ↔
        ∃ rest ∈ records buf, trnamtOf rest ≠ [] ∧ memoOf rest ≠ [] ∧ memoFlag = false) := by
  constructor
  · intro rest st h3
    have hne : (trnamtOf rest).isEmpty = false := by simpa using h3
    constructor
    · unfold recordBlock
      rw [hne]
      simp only [Bool.false_eq_true, if_false]
      by_cases hm : (memoOf rest).isEmpty = true <;> by_cases hf : memoFlag = true <;>
        by_cases hn : (nameOf rest).isEmpty = true <;>
        simp_all [pUnknownLine]
    · unfold processRecord
      rw [hne]
      simp
  · intro buf
    unfold convert
    rw [convertLoop_spec memoFlag (buf.length + 1) buf ⟨[headerLine], 0, false⟩ (by omega)]
    unfold records
    simp only [Bool.false_or, List.any_eq_true, memoSuppressed, emitsRecord,
      Bool.and_eq_true, Bool.not_eq_true', List.isEmpty_eq_false]
    constructor
    · rintro ⟨x, hx, ⟨h1, h2⟩, h3⟩
      exact ⟨x, hx, h1, h2, h3⟩
    · rintro ⟨x, hx, h1, h2, h3⟩
      exact ⟨x, hx, ⟨h1, h2⟩, h3⟩

/-- Witness to C7: an emitted record with a memo, converted with memo
inclusion off, raises the suppressed-memo warning. -/
theorem c7_witness :
    (processRecord false "<TRNAMT>1<MEMO>hi".toList ⟨[], 0, false⟩).printMemoWarning = true := by
  rw [((c7_memo_line_iff_and_suppression false).1 "<TRNAMT>1<MEMO>hi".toList ⟨[], 0, false⟩
    (by decide)).2]
  decide

/-- Claim C8: amount cleaning equals `filter (· != ',')` on the trimmed token
(so every comma is dropped and every non-comma character passes through
unchanged, in order), the cleaned amount contains no comma, and for every
emitted record the T line carries exactly that cleaned amount. -/
theorem c8_amount_comma_free (memoFlag : Bool) (rest : List Char) :
    clean_amount (trnamtOf rest) 0 = (trnamtOf rest).filter (fun c => c != ',') ∧
    (∀ c ∈ clean_amount (trnamtOf rest) 0, c ≠ ',') ∧
    (trnamtOf rest ≠ [] →
      ('T' :: clean_amount (trnamtOf rest) 0) ∈ recordBlock memoFlag rest) := by
  have hf : clean_amount (trnamtOf rest) 0 = (trnamtOf rest).filter (fun c => c != ',') :=
    clean_amount_eq_filter _ 0 (by have := trnamtOf_length_lt rest; omega)
  refine ⟨hf, ?_, ?_⟩
  · intro c hc
    rw [hf] at hc
    have := (List.mem_filter.mp hc).2
    simpa using this
  · intro h3
    have hne : (trnamtOf rest).isEmpty = false := by simpa using h3
    unfold recordBlock
    rw [hne]
    simp

/-- Witness to C8: a concrete amount with a comma appears comma-free on the T
line of its record block. -/
theorem c8_witness :
    ('T' :: clean_amount (trnamtOf "<TRNAMT>1,234.56".toList) 0)
      ∈ recordBlock false "<TRNAMT>1,234.56".toList ∧
    clean_amount (trnamtOf "<TRNAMT>1,234.56".toList) 0 = "1234.56".toList :=
  ⟨(c8_amount_comma_free false "<TRNAMT>1,234.56".toList).2.2 (by decide), by decide⟩

/-- Claim C9: the conversion output is the single `!Type:Bank` header followed
by the record blocks in input order, and every non-skipped block is exactly a
D line, a P line, an M line only when `memoFlag` is on and the memo non-empty,
a T line, the fixed `C*` line and the fixed `^` terminator. -/
theorem c9_output_shape (memoFlag : Bool) (buf : List Char) :
    (convert memoFlag buf).lines
      = headerLine :: ((records buf).map (recordBlock memoFlag)).flatten ∧
    ∀ rest : List Char, recordBlock memoFlag rest = [] ∨
      ∃ d p a, recordBlock memoFlag rest
        = ('D' :: d) :: ('P' :: p) ::
            ((if memoFlag = true ∧ memoOf rest ≠ [] then [('M' :: memoOf rest)] else []) ++
              [('T' :: a), ['C', '*'], ['^']]) := by
  constructor
  · unfold convert
    rw [convertLoop_spec memoFlag (buf.length + 1) buf ⟨[headerLine], 0, false⟩ (by omega)]
    unfold records
    simp
  · intro rest
    by_cases hne : (trnamtOf rest).isEmpty = true
    · left
      unfold recordBlock
      rw [hne]
      simp
    · right
      have hne' : (trnamtOf rest).isEmpty = false := by simpa using hne
      have hblock : recordBlock memoFlag rest
          = ('D' :: qifdateFinal (dtpostedOf rest)) ::
              (if (nameOf rest).isEmpty then pUnknownLine
                else 'P' :: sanitizeNl (nameOf rest)) ::
                ((if memoFlag = true ∧ memoOf rest ≠ [] then [('M' :: memoOf rest)] else []) ++
                  [('T' :: clean_amount (trnamtOf rest) 0), ['C', '*'], ['^']]) := by
        unfold recordBlock
        rw [hne']
        simp only [Bool.false_eq_true, if_false]
        congr 2
        by_cases hm : (memoOf rest).isEmpty = true <;> by_cases hfm : memoFlag = true <;>
          simp_all
      by_cases hn : (nameOf rest).isEmpty = true
      · refine ⟨qifdateFinal (dtpostedOf rest), ['(', 'u', 'n', 'k', 'n', 'o', 'w', 'n', ')'],
          clean_amount (trnamtOf rest) 0, ?_⟩
        rw [hblock, if_pos hn]
        rfl
      · refine ⟨qifdateFinal (dtpostedOf rest), sanitizeNl (nameOf rest),
          clean_amount (trnamtOf rest) 0, ?_⟩
        rw [hblock, if_neg hn]

end Qxf2Qif
